import Mathlib

/-!
Shallow embedding of the backtesting engine in
`quant_trading_project/backtest/backtester.py` (class `Backtester`).

Pandas/NumPy float columns are modelled as `List (Option ℚ)`: `none` is NaN,
`some q` an (exact) numeric value.  The pandas operations used by the engine
are reproduced with their skip-NaN semantics:
  * `Series.shift(1)` prepends a hole (filled by `fillna(0)`) and drops the
    last entry;
  * `Series.pct_change()` is NaN at index 0;
  * arithmetic on a NaN cell propagates NaN;
  * `cumprod`, `expanding().max()`, `.min()`, `.mean()`, `.std()` skip NaN
    cells (pandas default `skipna=True`); a sample standard deviation over
    fewer than two valid values is NaN.
Division is ℚ-division (division by zero yields the junk value 0); every
theorem whose meaning depends on a division keeps hypotheses that rule the
zero-denominator case out, and every concrete evaluation below stays away
from it, so the junk convention is never load-bearing.
`np.sqrt` has no exact rational counterpart, so the Sharpe-ratio values are
modelled in ℝ with `Real.sqrt`; everything else is computable.
-/

/-- A float cell of a pandas column: `none` is NaN. -/
abbrev Cell := Option ℚ

/-- NumPy `astype(int)` on a float: C-style truncation toward zero. -/
def truncQ (q : ℚ) : ℤ := if 0 ≤ q then ⌊q⌋ else ⌈q⌉

/-- Line 44 of backtester.py, per cell:
`df['signal'].fillna(0).replace({-1: 0}).astype(int)` —
a missing signal becomes 0, the exact value −1 is replaced by 0,
and the result is truncated toward zero to an integer. -/
def normalizeSignal (s : Cell) : ℤ :=
  truncQ (if s.getD 0 = -1 then 0 else s.getD 0)

/-- Line 45 of backtester.py: `shift(1).fillna(0)` applied to the normalized
signal column — the realized position column. -/
def positions (signals : List Cell) : List ℤ :=
  match signals.map normalizeSignal with
  | [] => []
  | x :: xs => 0 :: (x :: xs).dropLast

/-- Line 46 of backtester.py: `df['Close'].pct_change()` —
NaN at index 0, then `close(t)/close(t-1) - 1`. -/
def pctChange : List ℚ → List Cell
  | [] => []
  | c :: rest => none :: (List.zip (c :: rest) rest).map (fun p => some (p.2 / p.1 - 1))

/-- Line 47 of backtester.py: `df['position'] * df['returns']` —
elementwise product, NaN-propagating (the position column is never NaN). -/
def strategyReturns (pos : List ℤ) (rets : List Cell) : List Cell :=
  (pos.zip rets).map (fun p => p.2.map (fun r => (p.1 : ℚ) * r))

/-- Pandas `Series.cumprod()` (default `skipna=True`): a NaN cell stays NaN
and is skipped by the running product. -/
def cumprodSkip (acc : ℚ) : List Cell → List Cell
  | [] => []
  | none :: rest => none :: cumprodSkip acc rest
  | some x :: rest => some (acc * x) :: cumprodSkip (acc * x) rest

/-- Lines 48–49 of backtester.py: `(1 + col).cumprod() * initial_capital`. -/
def equityCurve (ic : ℚ) (col : List Cell) : List Cell :=
  (cumprodSkip 1 (col.map (Option.map (fun r => 1 + r)))).map (Option.map (fun e => e * ic))

/-- Line 52 of backtester.py: `expanding().max()` with skip-NaN semantics;
`acc` is the running maximum of the valid cells already seen. -/
def runningMax (acc : Option ℚ) : List Cell → List Cell
  | [] => []
  | none :: rest => acc :: runningMax acc rest
  | some x :: rest =>
      match acc with
      | none => some x :: runningMax (some x) rest
      | some a => some (max a x) :: runningMax (some (max a x)) rest

/-- Line 53 of backtester.py:
`(df['equity_curve'] - df['rolling_max']) / df['rolling_max']`. -/
def drawdowns (equity : List Cell) : List Cell :=
  (equity.zip (runningMax none equity)).map (fun p =>
    match p.1, p.2 with
    | some e, some m => some ((e - m) / m)
    | _, _ => none)

/-- Pandas `Series.min()` (skipna): NaN when no valid cell exists. -/
def minSkip (xs : List Cell) : Option ℚ :=
  match xs.filterMap id with
  | [] => none
  | y :: ys => some (ys.foldl min y)

/-- Lines 69–71 of backtester.py: the win rate of a strategy-return column.
`df[df['strategy_returns'] > 0]` keeps the cells whose value is > 0 (a NaN
comparison is False), symmetrically for losses. -/
def winRate (sr : List Cell) : ℚ :=
  let wins := (sr.filterMap id).countP (fun x => decide (0 < x))
  let losses := (sr.filterMap id).countP (fun x => decide (x < 0))
  if 0 < wins + losses then (wins : ℚ) / ((wins : ℚ) + (losses : ℚ)) * 100 else 0

/-- The valid (non-NaN) values of a column, in order. -/
def validVals (xs : List Cell) : List ℚ := xs.filterMap id

/-- Pandas `Series.mean()` over the valid cells (meaningful when at least one
valid cell exists; every use below is guarded by a count of at least two). -/
def meanQ (xs : List Cell) : ℚ := (validVals xs).sum / (validVals xs).length

/-- Pandas sample variance (`ddof=1`) over the valid cells — the square of
`Series.std()` (meaningful when at least two valid cells exist). -/
def varQ (xs : List Cell) : ℚ :=
  ((validVals xs).map (fun x => (x - meanQ xs) ^ 2)).sum / ((validVals xs).length - 1 : ℚ)

/-- The product of the valid cells of a column. -/
def prodValid (l : List Cell) : ℚ := (l.filterMap id).prod

/-- Full strategy equity curve of the engine (lines 44–48 of backtester.py):
positions from the signals, per-bar close-to-close returns, strategy returns,
and compounded equity from `ic`. -/
def equity (ic : ℚ) (closes : List ℚ) (sigs : List Cell) : List Cell :=
  equityCurve ic (strategyReturns (positions sigs) (pctChange closes))

/-- Pandas `Series.std()` (`ddof=1`, skipna) of a column: NaN (`none`) when
fewer than two valid cells exist, otherwise the square root of the sample
variance.  Real-valued because of the square root. -/
noncomputable def stdOpt (xs : List Cell) : Option ℝ :=
  if (validVals xs).length < 2 then none else some (Real.sqrt ((varQ xs : ℚ) : ℝ))

/-- Lines 60–63 of backtester.py: the Sharpe ratio of `run_backtest`.
`if df['strategy_returns'].std() != 0` — a NaN standard deviation compares
unequal to 0 in floating point, so that branch divides by NaN and produces
NaN (`none`); a zero standard deviation takes the `else` branch and yields 0;
otherwise `mean / std * np.sqrt(252)`. -/
noncomputable def sharpeRB (xs : List Cell) : Option ℝ :=
  match stdOpt xs with
  | none => none
  | some s => if s = 0 then some 0 else some ((meanQ xs : ℚ) / s * Real.sqrt 252)

/-- Lines 103–105 of backtester.py (`calculate_metrics`):
`avg_return = mean * 252`, `volatility = std * np.sqrt(252)`,
`sharpe_ratio = avg_return / volatility if volatility != 0 else 0`.
A NaN volatility again takes the division branch and yields NaN. -/
noncomputable def sharpeCM (xs : List Cell) : Option ℝ :=
  match stdOpt xs with
  | none => none
  | some s =>
      if s * Real.sqrt 252 = 0 then some 0
      else some ((meanQ xs : ℚ) * 252 / (s * Real.sqrt 252))

/-- Lines 48, 52–53, 65 of backtester.py: the max drawdown reported by
`run_backtest` as a function of the strategy-return column —
`df['drawdown'].min() * 100` over the equity curve compounded from `ic`. -/
def rbMaxDrawdown (ic : ℚ) (sr : List Cell) : Option ℚ :=
  (minSkip (drawdowns (equityCurve ic sr))).map (fun d => d * 100)

/-- Lines 108–111, 121 of backtester.py (`calculate_metrics`): the max
drawdown of a period-return column — the equity curve is
`(1 + returns).cumprod()` with no initial-capital factor, and the returned
value is `max_drawdown * 100`. -/
def maxDrawdownCM (rs : List Cell) : Option ℚ :=
  (minSkip (drawdowns (cumprodSkip 1 (rs.map (Option.map (fun r => 1 + r)))))).map
    (fun d => d * 100)

/-- Modelled from the spec words of the claim under test: the "long-only
clamp" of a signal value — a missing signal counts as 0 and negative values
clamp to 0.  Used only to compare the spec wording with `normalizeSignal`. -/
def specLongOnlyClamp (s : Cell) : ℚ := max (s.getD 0) 0

/-- The spec formula for the win rate (spec section 4.3): positive-return
bars over positive-plus-negative-return bars × 100, exact-zero and NaN bars
excluded from both counts, 0 when both counts are zero. -/
def winRateSpec (sr : List Cell) : ℚ :=
  let pos := sr.countP (fun c => match c with | some v => decide (0 < v) | none => false)
  let neg := sr.countP (fun c => match c with | some v => decide (v < 0) | none => false)
  if pos + neg = 0 then 0 else (pos : ℚ) / ((pos : ℚ) + (neg : ℚ)) * 100

/-- Input table of `run_backtest`: the `Close` column may be absent
(`none`), mirroring a DataFrame that lacks the required price column. -/
structure PriceData where
  close? : Option (List ℚ)

/-- The result record of `run_backtest` (the computable fields of the dict
built at lines 73–82 of backtester.py; the Sharpe ratio and volatility of the
record are the real-valued `sharpeRB` / `stdOpt` of `strategyReturns` and are
modelled by those separate definitions). -/
structure BacktestResult where
  totalReturn : Cell
  benchmarkReturn : Cell
  maxDrawdown : Option ℚ
  winRatePct : ℚ
  initialCapital : ℚ
  position : List ℤ
  returns : List Cell
  strategyReturns : List Cell
  equityCurve : List Cell
  benchmarkCurve : List Cell
  rollingMax : List Cell
  drawdown : List Cell

/-- Lines 19–90 of backtester.py: `run_backtest`, with the strategy call
already performed (the signal column is an argument).  A missing `Close`
column raises a `KeyError` at the `pct_change` line; an empty series raises
an `IndexError` at `iloc[-1]` (line 56); both are re-raised by the
`except` block, so no result record is produced.  The initial capital is
never validated. -/
def runBacktest (pd : PriceData) (signals : List Cell) (ic : ℚ) :
    Except String BacktestResult :=
  match pd.close? with
  | none => Except.error "KeyError: Close"
  | some closes =>
    match closes with
    | [] => Except.error "IndexError: single positional indexer is out-of-bounds"
    | c :: cs =>
      let pos := positions signals
      let rets := pctChange (c :: cs)
      let sr := strategyReturns pos rets
      let eq := equityCurve ic sr
      let bench := equityCurve ic rets
      let dd := drawdowns eq
      let wr := winRate sr
      Except.ok
        { totalReturn := (eq.getLast?.getD none).map (fun e => (e / ic - 1) * 100)
          benchmarkReturn := (bench.getLast?.getD none).map (fun e => (e / ic - 1) * 100)
          maxDrawdown := (minSkip dd).map (fun d => d * 100)
          winRatePct := wr
          initialCapital := ic
          position := pos
          returns := rets
          strategyReturns := sr
          equityCurve := eq
          benchmarkCurve := bench
          rollingMax := runningMax none eq
          drawdown := dd }

/-- Whether a `run_backtest` call returned a result record (rather than
raising). -/
def isOkResult (r : Except String BacktestResult) : Bool :=
  match r with
  | Except.ok _ => true
  | Except.error _ => false

/-! ### Helper lemmas -/

theorem zipGetElem? {α β : Type} (a : List α) (b : List β) (i : ℕ) :
    (a.zip b)[i]? = (a[i]?).bind (fun x => (b[i]?).map (fun y => (x, y))) := by
  induction a generalizing b i with
  | nil => simp
  | cons x xs ih =>
      cases b with
      | nil => simp
      | cons y ys =>
          cases i with
          | zero => simp [List.zip_cons_cons]
          | succ j => simpa [List.zip_cons_cons] using ih ys j

theorem positions_cons (s : Cell) (ss : List Cell) :
    positions (s :: ss) = 0 :: ((s :: ss).map normalizeSignal).dropLast := rfl

theorem positions_length (sigs : List Cell) :
    (positions sigs).length = sigs.length := by
  cases sigs with
  | nil => rfl
  | cons s ss => simp [positions_cons]

theorem positions_getElem?_zero (s : Cell) (ss : List Cell) :
    (positions (s :: ss))[0]? = some 0 := by
  simp [positions_cons]

theorem positions_getElem?_succ (sigs : List Cell) (t : ℕ) (h : t + 1 < sigs.length) :
    (positions sigs)[t + 1]? = (sigs[t]?).map normalizeSignal := by
  cases sigs with
  | nil => simp at h
  | cons s ss =>
      have ht : t < ((s :: ss).map normalizeSignal).length - 1 := by simpa using h
      rw [positions_cons, List.getElem?_cons_succ, List.getElem?_dropLast, if_pos ht,
        List.getElem?_map]

theorem pctChange_cons (c : ℚ) (cs : List ℚ) :
    pctChange (c :: cs) =
      none :: (List.zip (c :: cs) cs).map (fun p => some (p.2 / p.1 - 1)) := rfl

theorem pctChange_length (closes : List ℚ) :
    (pctChange closes).length = closes.length := by
  cases closes with
  | nil => rfl
  | cons c cs => simp [pctChange_cons, Nat.min_def, Nat.le_succ]

theorem pctChange_getElem?_zero (c : ℚ) (cs : List ℚ) :
    (pctChange (c :: cs))[0]? = some none := by
  simp [pctChange_cons]

theorem pctChange_getElem?_succ (closes : List ℚ) (t : ℕ) (h : t + 1 < closes.length) :
    ∃ r : ℚ, (pctChange closes)[t + 1]? = some (some r) := by
  cases closes with
  | nil => simp at h
  | cons c cs =>
      have h1 : t < (c :: cs).length := Nat.lt_of_succ_lt h
      have h2 : t < cs.length := by simpa using h
      rw [pctChange_cons, List.getElem?_cons_succ, List.getElem?_map, zipGetElem?,
        List.getElem?_eq_getElem h1, List.getElem?_eq_getElem h2]
      exact ⟨_, rfl⟩

theorem strategyReturns_getElem? (pos : List ℤ) (rets : List Cell) (t : ℕ) :
    (strategyReturns pos rets)[t]? =
      (pos[t]?).bind (fun p => (rets[t]?).map (fun r => r.map (fun x => (p : ℚ) * x))) := by
  unfold strategyReturns
  rw [List.getElem?_map, zipGetElem?]
  cases pos[t]? <;> cases rets[t]? <;> simp

theorem cumprodSkip_getElem? (l : List Cell) (acc : ℚ) (t : ℕ) (c : Cell)
    (h : l[t]? = some c) :
    (cumprodSkip acc l)[t]? = some (c.map (fun _ => acc * prodValid (l.take (t + 1)))) := by
  induction l generalizing acc t c with
  | nil => simp at h
  | cons d rest ih =>
      cases t with
      | zero =>
          have hd : d = c := by simpa using h
          subst hd
          cases d with
          | none => simp [cumprodSkip, prodValid]
          | some x => simp [cumprodSkip, prodValid, List.filterMap_cons]
      | succ u =>
          rw [List.getElem?_cons_succ] at h
          cases d with
          | none =>
              rw [show cumprodSkip acc (none :: rest) = none :: cumprodSkip acc rest from rfl,
                List.getElem?_cons_succ, ih acc u c h]
              cases c <;> simp [prodValid, List.take_succ_cons, List.filterMap_cons]
          | some x =>
              rw [show cumprodSkip acc (some x :: rest)
                    = some (acc * x) :: cumprodSkip (acc * x) rest from rfl,
                List.getElem?_cons_succ, ih (acc * x) u c h]
              cases c <;> simp [prodValid, List.take_succ_cons, List.filterMap_cons, mul_assoc]

theorem cumprodSkip_length (acc : ℚ) (l : List Cell) :
    (cumprodSkip acc l).length = l.length := by
  induction l generalizing acc with
  | nil => rfl
  | cons d rest ih => cases d <;> simp [cumprodSkip, ih]

theorem equityCurve_length (ic : ℚ) (col : List Cell) :
    (equityCurve ic col).length = col.length := by
  simp [equityCurve, cumprodSkip_length]

theorem srPipeline_getElem?_zero (closes : List ℚ) (sigs : List Cell)
    (hc : closes ≠ []) (hs : sigs ≠ []) :
    (strategyReturns (positions sigs) (pctChange closes))[0]? = some none := by
  obtain ⟨c, cs, rfl⟩ := List.exists_cons_of_ne_nil hc
  obtain ⟨s, ss, rfl⟩ := List.exists_cons_of_ne_nil hs
  rw [strategyReturns_getElem?, positions_getElem?_zero, pctChange_getElem?_zero]
  rfl

theorem srPipeline_getElem?_succ (closes : List ℚ) (sigs : List Cell) (t : ℕ)
    (hlen : sigs.length = closes.length) (h : t + 1 < closes.length) :
    ∃ v : ℚ,
      (strategyReturns (positions sigs) (pctChange closes))[t + 1]? = some (some v) := by
  have hplen : t + 1 < (positions sigs).length := by
    rw [positions_length, hlen]; exact h
  obtain ⟨r, hre⟩ := pctChange_getElem?_succ closes t h
  refine ⟨((positions sigs).get ⟨t + 1, hplen⟩ : ℚ) * r, ?_⟩
  rw [strategyReturns_getElem?, List.getElem?_eq_getElem hplen, hre]
  rfl

theorem equityCurve_getElem?_none (ic : ℚ) (col : List Cell) (t : ℕ)
    (h : col[t]? = some none) :
    (equityCurve ic col)[t]? = some none := by
  unfold equityCurve
  rw [List.getElem?_map,
    cumprodSkip_getElem? _ 1 t none (by rw [List.getElem?_map, h]; rfl)]
  rfl

theorem equityCurve_getElem?_some (ic : ℚ) (col : List Cell) (t : ℕ) (v : ℚ)
    (h : col[t]? = some (some v)) :
    (equityCurve ic col)[t]? =
      some (some (ic * prodValid ((col.take (t + 1)).map (Option.map (fun r => 1 + r))))) := by
  unfold equityCurve
  rw [List.getElem?_map,
    cumprodSkip_getElem? _ 1 t (some (1 + v)) (by rw [List.getElem?_map, h]; rfl)]
  rw [List.map_take]
  simp [mul_comm]

theorem runningMax_length (acc : Option ℚ) (e : List Cell) :
    (runningMax acc e).length = e.length := by
  induction e generalizing acc with
  | nil => rfl
  | cons d rest ih =>
      cases d with
      | none => simp [runningMax, ih]
      | some x => cases acc <;> simp [runningMax, ih]

theorem runningMax_getElem?_ge (e : List Cell) (acc : Option ℚ) (t : ℕ) (x : ℚ)
    (h : e[t]? = some (some x)) :
    ∃ m : ℚ, (runningMax acc e)[t]? = some (some m) ∧ x ≤ m := by
  induction e generalizing acc t with
  | nil => simp at h
  | cons d rest ih =>
      cases t with
      | zero =>
          have hd : d = some x := by simpa using h
          subst hd
          cases acc with
          | none => exact ⟨x, by simp [runningMax], le_refl x⟩
          | some a => exact ⟨max a x, by simp [runningMax], le_max_right a x⟩
      | succ u =>
          rw [List.getElem?_cons_succ] at h
          cases d with
          | none =>
              obtain ⟨m, hm, hx⟩ := ih acc u h
              exact ⟨m, by
                rw [show runningMax acc (none :: rest) = acc :: runningMax acc rest from rfl,
                  List.getElem?_cons_succ]
                exact hm, hx⟩
          | some y =>
              cases acc with
              | none =>
                  obtain ⟨m, hm, hx⟩ := ih (some y) u h
                  exact ⟨m, by
                    rw [show runningMax none (some y :: rest)
                          = some y :: runningMax (some y) rest from rfl,
                      List.getElem?_cons_succ]
                    exact hm, hx⟩
              | some a =>
                  obtain ⟨m, hm, hx⟩ := ih (some (max a y)) u h
                  exact ⟨m, by
                    rw [show runningMax (some a) (some y :: rest)
                          = some (max a y) :: runningMax (some (max a y)) rest from rfl,
                      List.getElem?_cons_succ]
                    exact hm, hx⟩

theorem runningMax_mem_pos (e : List Cell) (acc : Option ℚ)
    (hacc : ∀ a : ℚ, acc = some a → 0 < a)
    (he : ∀ q : ℚ, some q ∈ e → 0 < q) :
    ∀ m : ℚ, some m ∈ runningMax acc e → 0 < m := by
  induction e generalizing acc with
  | nil => intro m hm; simp [runningMax] at hm
  | cons d rest ih =>
      intro m hm
      cases d with
      | none =>
          rw [show runningMax acc (none :: rest) = acc :: runningMax acc rest from rfl] at hm
          rcases List.mem_cons.mp hm with h1 | h1
          · exact hacc m h1.symm
          · exact ih acc hacc (fun q hq => he q (List.mem_cons_of_mem _ hq)) m h1
      | some x =>
          have hx : 0 < x := he x (List.mem_cons_self _ _)
          cases acc with
          | none =>
              rw [show runningMax none (some x :: rest)
                    = some x :: runningMax (some x) rest from rfl] at hm
              rcases List.mem_cons.mp hm with h1 | h1
              · have : x = m := by simpa using h1.symm
                exact this ▸ hx
              · refine ih (some x) (fun a ha => ?_)
                  (fun q hq => he q (List.mem_cons_of_mem _ hq)) m h1
                have : x = a := by simpa using ha
                exact this ▸ hx
          | some a =>
              have ha : 0 < a := hacc a rfl
              have hmax : 0 < max a x := lt_max_iff.mpr (Or.inl ha)
              rw [show runningMax (some a) (some x :: rest)
                    = some (max a x) :: runningMax (some (max a x)) rest from rfl] at hm
              rcases List.mem_cons.mp hm with h1 | h1
              · have : max a x = m := by simpa using h1.symm
                exact this ▸ hmax
              · refine ih (some (max a x)) (fun b hb => ?_)
                  (fun q hq => he q (List.mem_cons_of_mem _ hq)) m h1
                have : max a x = b := by simpa using hb
                exact this ▸ hmax

theorem cumprodSkip_mem_pos (l : List Cell) (acc : ℚ) (hacc : 0 < acc)
    (hl : ∀ q : ℚ, some q ∈ l → 0 < q) :
    ∀ q : ℚ, some q ∈ cumprodSkip acc l → 0 < q := by
  induction l generalizing acc with
  | nil => intro q hq; simp [cumprodSkip] at hq
  | cons d rest ih =>
      intro q hq
      cases d with
      | none =>
          rw [show cumprodSkip acc (none :: rest) = none :: cumprodSkip acc rest from rfl] at hq
          rcases List.mem_cons.mp hq with h1 | h1
          · simp at h1
          · exact ih acc hacc (fun r hr => hl r (List.mem_cons_of_mem _ hr)) q h1
      | some x =>
          have hx : 0 < x := hl x (List.mem_cons_self _ _)
          rw [show cumprodSkip acc (some x :: rest)
                = some (acc * x) :: cumprodSkip (acc * x) rest from rfl] at hq
          rcases List.mem_cons.mp hq with h1 | h1
          · have : acc * x = q := by simpa using h1.symm
            exact this ▸ mul_pos hacc hx
          · exact ih (acc * x) (mul_pos hacc hx)
              (fun r hr => hl r (List.mem_cons_of_mem _ hr)) q h1

theorem equityCurve_mem_pos (ic : ℚ) (col : List Cell) (hic : 0 < ic)
    (hcol : ∀ q : ℚ, some q ∈ col → -1 < q) :
    ∀ q : ℚ, some q ∈ equityCurve ic col → 0 < q := by
  intro q hq
  unfold equityCurve at hq
  obtain ⟨c, hc, hmap⟩ := List.mem_map.mp hq
  cases c with
  | none => simp at hmap
  | some e =>
      have he : q = e * ic := by simpa using hmap.symm
      have hepos : 0 < e := by
        refine cumprodSkip_mem_pos _ 1 one_pos (fun r hr => ?_) e hc
        obtain ⟨c2, hc2, hmap2⟩ := List.mem_map.mp hr
        cases c2 with
        | none => simp at hmap2
        | some x =>
            have hx : -1 < x := hcol x hc2
            have : 1 + x = r := by simpa using hmap2
            rw [← this]
            linarith
      rw [he]
      exact mul_pos hepos hic

theorem drawdowns_nonpos (e : List Cell) (hpos : ∀ q : ℚ, some q ∈ e → 0 < q) :
    ∀ (t : ℕ) (q : ℚ), (drawdowns e)[t]? = some (some q) → q ≤ 0 := by
  intro t q hq
  unfold drawdowns at hq
  rw [List.getElem?_map, zipGetElem?] at hq
  cases he : e[t]? with
  | none => rw [he] at hq; simp at hq
  | some c =>
      rw [he] at hq
      cases c with
      | none =>
          cases hr : (runningMax none e)[t]? with
          | none => rw [hr] at hq; simp at hq
          | some m => rw [hr] at hq; simp at hq
      | some a =>
          obtain ⟨m, hm, ham⟩ := runningMax_getElem?_ge e none t a he
          rw [hm] at hq
          have hq' : (a - m) / m = q := by simpa using hq
          have hm0 : 0 < m :=
            runningMax_mem_pos e none (by simp) hpos m (List.getElem?_mem hm)
          rw [← hq']
          exact div_nonpos_iff.mpr (Or.inr ⟨sub_nonpos.mpr ham, le_of_lt hm0⟩)

theorem drawdowns_zero_at_max (e : List Cell) (t : ℕ) (q : ℚ)
    (he : e[t]? = some (some q)) (hm : (runningMax none e)[t]? = some (some q)) :
    (drawdowns e)[t]? = some (some 0) := by
  unfold drawdowns
  rw [List.getElem?_map, zipGetElem?, he, hm]
  simp

theorem countP_filterMap_id (p : ℚ → Bool) (sr : List Cell) :
    (sr.filterMap id).countP p =
      sr.countP (fun c => match c with | some v => p v | none => false) := by
  induction sr with
  | nil => rfl
  | cons d rest ih => cases d <;> simp [List.filterMap_cons, List.countP_cons, ih]

theorem zip_replicate_one_map (l : List Cell) :
    (List.zip (List.replicate l.length (1 : ℤ)) l).map
      (fun p => p.2.map (fun r => (p.1 : ℚ) * r)) = l := by
  induction l with
  | nil => rfl
  | cons d rest ih =>
      rw [List.length_cons, List.replicate_succ, List.zip_cons_cons, List.map_cons, ih]
      congr 1
      cases d <;> simp

theorem positions_replicate_one (n : ℕ) :
    positions (List.replicate (n + 1) (some (1 : ℚ))) = 0 :: List.replicate n (1 : ℤ) := by
  have hN : normalizeSignal (some (1 : ℚ)) = 1 := by norm_num [normalizeSignal, truncQ]
  rw [List.replicate_succ, positions_cons, ← List.replicate_succ, List.map_replicate, hN,
    List.dropLast_eq_take, List.length_replicate, Nat.succ_sub_one, List.take_replicate,
    min_eq_left (Nat.le_succ n)]

theorem sr_always_long (closes : List ℚ) :
    strategyReturns (positions (List.replicate closes.length (some (1 : ℚ))))
      (pctChange closes) = pctChange closes := by
  cases closes with
  | nil => rfl
  | cons c cs =>
      rw [show (c :: cs).length = cs.length + 1 from rfl, positions_replicate_one,
        pctChange_cons]
      unfold strategyReturns
      rw [List.zip_cons_cons, List.map_cons]
      have hlen : ((List.zip (c :: cs) cs).map
          (fun p => some (p.2 / p.1 - 1))).length = cs.length := by
        simp [Nat.min_def, Nat.le_succ]
      congr 1
      conv_lhs => rw [← hlen]
      exact zip_replicate_one_map _

theorem positions_mem_zero (sigs : List Cell)
    (h : ∀ c ∈ sigs, normalizeSignal c = 0) :
    ∀ p ∈ positions sigs, p = 0 := by
  intro p hp
  cases sigs with
  | nil => simp [positions] at hp
  | cons s ss =>
      rw [positions_cons] at hp
      rcases List.mem_cons.mp hp with h1 | h1
      · exact h1
      · have hmem : p ∈ (s :: ss).map normalizeSignal := List.dropLast_subset _ h1
        obtain ⟨c, hc, rfl⟩ := List.mem_map.mp hmem
        exact h c hc

theorem srs_mem_zero (pos : List ℤ) (rets : List Cell) (hp : ∀ p ∈ pos, p = 0) :
    ∀ c ∈ strategyReturns pos rets, c = none ∨ c = some 0 := by
  intro c hc
  unfold strategyReturns at hc
  obtain ⟨⟨p, r⟩, hmem, rfl⟩ := List.mem_map.mp hc
  have hp0 : p = 0 := hp p (List.of_mem_zip hmem).1
  subst hp0
  cases r with
  | none => exact Or.inl rfl
  | some x => exact Or.inr (by simp)

theorem prodValid_ones (l : List Cell) (h : ∀ q : ℚ, some q ∈ l → q = 1) :
    prodValid l = 1 := by
  unfold prodValid
  refine List.prod_eq_one (fun x hx => ?_)
  obtain ⟨a, ha, hid⟩ := List.mem_filterMap.mp hx
  exact h x (by rwa [show id a = a from rfl] at hid ▸ ha)

theorem runningMax_map_mul (e : List Cell) (cc : ℚ) (hc : 0 < cc) (acc : Option ℚ) :
    runningMax (acc.map (fun v => v * cc)) (e.map (Option.map (fun v => v * cc)))
      = (runningMax acc e).map (Option.map (fun v => v * cc)) := by
  induction e generalizing acc with
  | nil => simp [runningMax]
  | cons d rest ih =>
      cases d with
      | none =>
          rw [show (none :: rest).map (Option.map (fun v => v * cc))
                = none :: rest.map (Option.map (fun v => v * cc)) from rfl]
          rw [show runningMax (acc.map (fun v => v * cc))
                (none :: rest.map (Option.map (fun v => v * cc)))
                = acc.map (fun v => v * cc)
                  :: runningMax (acc.map (fun v => v * cc))
                    (rest.map (Option.map (fun v => v * cc))) from rfl]
          rw [show runningMax acc (none :: rest) = acc :: runningMax acc rest from rfl]
          rw [List.map_cons, ih acc]
      | some x =>
          cases acc with
          | none =>
              rw [show ((some x :: rest).map (Option.map (fun v => v * cc)))
                    = some (x * cc) :: rest.map (Option.map (fun v => v * cc)) from rfl]
              rw [show (Option.map (fun v => v * cc) none) = none from rfl]
              rw [show runningMax none
                    (some (x * cc) :: rest.map (Option.map (fun v => v * cc)))
                    = some (x * cc)
                      :: runningMax (some (x * cc))
                        (rest.map (Option.map (fun v => v * cc))) from rfl]
              rw [show runningMax none (some x :: rest)
                    = some x :: runningMax (some x) rest from rfl]
              rw [List.map_cons, ← ih (some x)]
              rfl
          | some a =>
              rw [show ((some x :: rest).map (Option.map (fun v => v * cc)))
                    = some (x * cc) :: rest.map (Option.map (fun v => v * cc)) from rfl]
              rw [show (Option.map (fun v => v * cc) (some a)) = some (a * cc) from rfl]
              rw [show runningMax (some (a * cc))
                    (some (x * cc) :: rest.map (Option.map (fun v => v * cc)))
                    = some (max (a * cc) (x * cc))
                      :: runningMax (some (max (a * cc) (x * cc)))
                        (rest.map (Option.map (fun v => v * cc))) from rfl]
              rw [show runningMax (some a) (some x :: rest)
                    = some (max a x) :: runningMax (some (max a x)) rest from rfl]
              have hmax : max (a * cc) (x * cc) = max a x * cc :=
                (max_mul_of_nonneg a x (le_of_lt hc)).symm
              rw [List.map_cons, hmax, ← ih (some (max a x))]
              rfl

theorem drawdowns_map_mul (e : List Cell) (cc : ℚ) (hc : 0 < cc) :
    drawdowns (e.map (Option.map (fun v => v * cc))) = drawdowns e := by
  unfold drawdowns
  have h0 : (none : Option ℚ) = Option.map (fun v => v * cc) none := rfl
  rw [h0, runningMax_map_mul e cc hc none, List.zip_map, List.map_map]
  refine List.map_congr_left (fun p _ => ?_)
  rcases p with ⟨c1, c2⟩
  cases c1 with
  | none => rfl
  | some a =>
      cases c2 with
      | none => rfl
      | some m =>
          simp only [Function.comp, Prod.map]
          have : (a * cc - m * cc) / (m * cc) = (a - m) / m := by
            rw [← sub_mul, mul_div_mul_right _ _ (ne_of_gt hc)]
          simpa using congrArg some this

theorem rbMaxDrawdown_eq_cm (ic : ℚ) (hic : 0 < ic) (sr : List Cell) :
    rbMaxDrawdown ic sr = maxDrawdownCM sr := by
  unfold rbMaxDrawdown maxDrawdownCM equityCurve
  rw [show (fun e : ℚ => e * ic) = (fun v : ℚ => v * ic) from rfl,
    drawdowns_map_mul _ ic hic]

theorem sharpeCM_eq_sharpeRB (xs : List Cell) : sharpeCM xs = sharpeRB xs := by
  cases h : stdOpt xs with
  | none => simp [sharpeCM, sharpeRB, h]
  | some s =>
      simp only [sharpeCM, sharpeRB, h]
      have hsqrt : (0 : ℝ) < Real.sqrt 252 := Real.sqrt_pos.mpr (by norm_num)
      by_cases hs : s = 0
      · subst hs
        simp
      · have hv : s * Real.sqrt 252 ≠ 0 := mul_ne_zero hs (ne_of_gt hsqrt)
        rw [if_neg hv, if_neg hs]
        congr 1
        have h252 : Real.sqrt 252 ^ 2 = 252 := Real.sq_sqrt (by norm_num)
        field_simp
        linear_combination (-(meanQ xs : ℝ) * s) * h252

theorem stdOpt_of_var_zero (xs : List Cell) (h2 : 2 ≤ (validVals xs).length)
    (hv : varQ xs = 0) : stdOpt xs = some 0 := by
  unfold stdOpt
  rw [if_neg (by omega), hv]
  norm_num

theorem normalizeSignal_unit (s : ℚ) (h0 : 0 < s) (h1 : s < 1) :
    normalizeSignal (some s) = 0 := by
  have hne : s ≠ -1 := by intro he; rw [he] at h0; norm_num at h0
  unfold normalizeSignal truncQ
  simp only [Option.getD_some, if_neg hne, if_pos (le_of_lt h0)]
  exact Int.floor_eq_zero_iff.mpr ⟨le_of_lt h0, h1⟩

theorem normalizeSignal_neg_unit (s : ℚ) (h1 : -1 ≤ s) (h2 : s ≤ 0) :
    normalizeSignal (some s) = 0 := by
  unfold normalizeSignal truncQ
  by_cases he : s = -1
  · simp only [Option.getD_some, if_pos he]
    norm_num
  · simp only [Option.getD_some, if_neg he]
    by_cases h0 : 0 ≤ s
    · have hs0 : s = 0 := le_antisymm h2 h0
      simp only [if_pos h0, hs0]
      norm_num
    · simp only [if_neg h0]
      have hlt : (-1 : ℚ) < s := lt_of_le_of_ne h1 (Ne.symm he)
      exact Int.ceil_eq_zero_iff.mpr ⟨hlt, h2⟩

theorem equity_flat_of_zero_positions (closes : List ℚ) (sigs : List Cell) (ic : ℚ)
    (hlen : sigs.length = closes.length)
    (hzero : ∀ p ∈ positions sigs, p = 0) :
    ∀ t, 1 ≤ t → t < closes.length → (equity ic closes sigs)[t]? = some (some ic) := by
  intro t h1 ht
  obtain ⟨u, rfl⟩ : ∃ u, t = u + 1 := ⟨t - 1, by omega⟩
  obtain ⟨v, hv⟩ := srPipeline_getElem?_succ closes sigs u hlen ht
  have hmemz := srs_mem_zero (positions sigs) (pctChange closes) hzero
  have hv0 : v = 0 := by
    have hmem : (some v : Cell) ∈ strategyReturns (positions sigs) (pctChange closes) :=
      List.getElem?_mem hv
    rcases hmemz _ hmem with h | h
    · simp at h
    · simpa using h
  subst hv0
  rw [show equity ic closes sigs
      = equityCurve ic (strategyReturns (positions sigs) (pctChange closes)) from rfl,
    equityCurve_getElem?_some ic _ (u + 1) 0 hv]
  have hprod : prodValid
      (((strategyReturns (positions sigs) (pctChange closes)).take (u + 1 + 1)).map
        (Option.map (fun r => 1 + r))) = 1 := by
    refine prodValid_ones _ (fun q hq => ?_)
    obtain ⟨c, hc, hmap⟩ := List.mem_map.mp hq
    have hcs : c ∈ strategyReturns (positions sigs) (pctChange closes) :=
      List.take_subset _ _ hc
    rcases hmemz c hcs with h | h
    · subst h; simp at hmap
    · subst h; simpa using hmap.symm
  rw [hprod, mul_one]

/-! ### Claim theorems -/

/-- Claim C1, counterexample: the realized position is not the long-only
clamp of the previous signal — for the signal series `[-2, 0]` the position
at bar 1 is −2 (the `replace({-1: 0}).astype(int)` normalization truncates
−2 to −2), while the long-only clamp of signal −2 is 0. -/
theorem C1_counterexample :
    ((positions [some (-2), some 0]).getD 1 0 : ℚ) ≠ specLongOnlyClamp (some (-2)) := by
  have hpos : positions [some (-2), some 0] = [0, -2] := by
    norm_num [positions, normalizeSignal, truncQ, Int.ceil_neg]
  rw [hpos]
  norm_num [specLongOnlyClamp]

/-- Claim C1 (amended): for every signal series, the realized position at
bar 0 is 0, and the realized position at bar t+1 equals
`normalizeSignal (signal t)` — the code normalization (missing ↦ 0, exactly
−1 ↦ 0, then integer truncation toward zero), not a long-only clamp.  In
particular position(t+1) depends only on signal(t), never on signal(t+1). -/
theorem C1_position_lag_amended (sigs : List Cell) (t : ℕ) (h : t + 1 < sigs.length) :
    (positions sigs)[0]? = some 0 ∧
    (positions sigs)[t + 1]? = (sigs[t]?).map normalizeSignal := by
  cases sigs with
  | nil => simp at h
  | cons s ss => exact ⟨positions_getElem?_zero s ss, positions_getElem?_succ _ t h⟩

/-- Claim C1 amended, witness at the signal series `[1, 0]` and t = 0. -/
theorem C1_position_lag_amended_witness :
    (positions [some 1, some 0])[0]? = some 0 ∧
    (positions [some 1, some 0])[1]?
      = (([some 1, some 0] : List Cell)[0]?).map normalizeSignal :=
  C1_position_lag_amended [some 1, some 0] 0 (by norm_num)

/-- Claim C2, counterexample: for closes `[100, 101]`, the all-zero signal
series and initial capital 10000, the equity curve at the first bar is NaN
(strategy_return(0) = 0 × NaN = NaN and `cumprod` keeps the NaN), not the
initial capital. -/
theorem C2_counterexample :
    (equity 10000 [100, 101] [some 0, some 0])[0]? ≠ some (some 10000) := by
  rw [show equity 10000 [100, 101] [some 0, some 0] = [none, some 10000] from by
    norm_num [equity, equityCurve, strategyReturns, positions, pctChange,
      normalizeSignal, truncQ, cumprodSkip]]
  simp

/-- Claim C2 (amended): for every bar series with at least 2 bars, aligned
signal series and initial capital, the equity curve at bar 0 is NaN (not
`initial_capital`), and at every bar t ≥ 1 it equals
`initial_capital × Π (1 + strategy_return(s))` over the non-NaN
strategy returns with s ≤ t (equivalently s ranging over 1..t, the NaN term
at s = 0 being skipped by `cumprod` rather than treated as 0). -/
theorem C2_equity_curve_amended (closes : List ℚ) (sigs : List Cell) (ic : ℚ)
    (hlen : sigs.length = closes.length) (h2 : 2 ≤ closes.length) :
    (equity ic closes sigs)[0]? = some none ∧
    ∀ t, 1 ≤ t → t < closes.length →
      (equity ic closes sigs)[t]? =
        some (some (ic * prodValid
          (((strategyReturns (positions sigs) (pctChange closes)).take (t + 1)).map
            (Option.map (fun r => 1 + r))))) := by
  have hc : closes ≠ [] := by intro h; rw [h] at h2; simp at h2
  have hs : sigs ≠ [] := by
    intro h
    rw [h] at hlen
    rw [← hlen] at h2
    simp at h2
  constructor
  · rw [show equity ic closes sigs
        = equityCurve ic (strategyReturns (positions sigs) (pctChange closes)) from rfl]
    exact equityCurve_getElem?_none ic _ 0 (srPipeline_getElem?_zero closes sigs hc hs)
  · intro t h1 ht
    obtain ⟨u, rfl⟩ : ∃ u, t = u + 1 := ⟨t - 1, by omega⟩
    obtain ⟨v, hv⟩ := srPipeline_getElem?_succ closes sigs u hlen ht
    exact equityCurve_getElem?_some ic _ (u + 1) v hv

/-- Claim C2 amended, witness at closes `[100, 101]`, always-long signals
and initial capital 10000. -/
theorem C2_equity_curve_amended_witness :
    (equity 10000 [100, 101] [some 1, some 1])[0]? = some none :=
  (C2_equity_curve_amended [100, 101] [some 1, some 1] 10000 (by norm_num)
    (by norm_num)).1

/-- Claim C3, counterexample: the signal −3 is not mapped to position
eligibility 0 — `replace({-1: 0})` only replaces the exact value −1 and
`astype(int)` truncates −3 to −3, so the realized position at the next bar
is the negative value −3. -/
theorem C3_counterexample :
    (positions [some (-3), some 0])[1]? = some (-3) ∧ (-3 : ℤ) < 0 := by
  constructor
  · rw [show positions [some (-3), some 0] = [0, -3] from by
      norm_num [positions, normalizeSignal, truncQ, Int.ceil_neg]]
    rfl
  · norm_num

/-- Claim C3 (amended): the normalization maps the exact signal −1 and every
signal in \[−1, 0\] to position eligibility 0, but a signal strictly below
−1 is only truncated toward zero, so signals such as −2 yield negative
position eligibility (−2 ↦ −2) and realized positions can be negative. -/
theorem C3_short_signal_amended :
    (∀ s : ℚ, -1 ≤ s → s ≤ 0 → normalizeSignal (some s) = 0) ∧
    normalizeSignal (some (-2)) = -2 := by
  constructor
  · exact normalizeSignal_neg_unit
  · norm_num [normalizeSignal, truncQ, Int.ceil_neg]

/-- Claim C3 amended, witness at the signal −1/2. -/
theorem C3_short_signal_amended_witness : normalizeSignal (some (-1/2)) = 0 :=
  C3_short_signal_amended.1 (-1/2) (by norm_num) (by norm_num)

/-- Claim C4: on any period-return sequence, the standalone
`calculate_metrics` computes exactly the same Sharpe ratio as the primary
`run_backtest` path (`mean/std × √252`, 0 when std = 0, NaN when std is
NaN), and — for any positive initial capital — exactly the same max drawdown
(the initial-capital factor of the primary path's equity curve cancels in
the drawdown ratio). -/
theorem C4_metrics_consistency :
    (∀ rs : List Cell, sharpeCM rs = sharpeRB rs) ∧
    ∀ (rs : List Cell) (ic : ℚ), 0 < ic → maxDrawdownCM rs = rbMaxDrawdown ic rs :=
  ⟨sharpeCM_eq_sharpeRB, fun rs ic hic => (rbMaxDrawdown_eq_cm ic hic rs).symm⟩

/-- Claim C4, witness at the return sequence `[NaN, 1%, −2%]` and initial
capital 10000. -/
theorem C4_metrics_consistency_witness :
    maxDrawdownCM [none, some (1/100), some (-1/50)]
      = rbMaxDrawdown 10000 [none, some (1/100), some (-1/50)] :=
  C4_metrics_consistency.2 [none, some (1/100), some (-1/50)] 10000 (by norm_num)

/-- Claim C5: the win rate of `run_backtest` equals
`count(strategy_return > 0) / (count(> 0) + count(< 0)) × 100` with
exact-zero (and NaN) bars excluded from both counts and 0 when both counts
are zero; prepending a zero-return bar never changes it, and the strategy
returns `[0.01, 0, −0.01, 0]` yield exactly 50. -/
theorem C5_win_rate :
    (∀ sr : List Cell, winRate sr = winRateSpec sr) ∧
    (∀ l : List Cell, winRate (some 0 :: l) = winRate l) ∧
    winRate [some (1/100), some 0, some (-1/100), some 0] = 50 := by
  refine ⟨fun sr => ?_, fun l => ?_, ?_⟩
  · unfold winRate winRateSpec
    rw [countP_filterMap_id (fun x => decide (0 < x)) sr,
      countP_filterMap_id (fun x => decide (x < 0)) sr]
    rcases Nat.eq_zero_or_pos
        (sr.countP (fun c => match c with | some v => decide (0 < v) | none => false)
          + sr.countP (fun c => match c with | some v => decide (v < 0) | none => false))
      with h | h
    · rw [if_neg (by omega), if_pos h]
    · rw [if_pos h, if_neg (by omega)]
  · have hf : List.filterMap id ((some 0 : Cell) :: l) = 0 :: List.filterMap id l := rfl
    unfold winRate
    rw [hf, List.countP_cons, List.countP_cons]
    simp only [decide_eq_true_eq]
    rw [if_neg (lt_irrefl (0 : ℚ))]
    simp
  · norm_num [winRate, List.filterMap, List.countP, List.countP.go]

/-- Claim C6: whenever the strategy returns have zero sample standard
deviation (at least two valid values, zero variance), both Sharpe-ratio
entry points return exactly 0 — not NaN, not infinity, and no division
error. -/
theorem C6_sharpe_zero_variance (xs : List Cell) (h2 : 2 ≤ (validVals xs).length)
    (hv : varQ xs = 0) : sharpeRB xs = some 0 ∧ sharpeCM xs = some 0 := by
  have hstd := stdOpt_of_var_zero xs h2 hv
  constructor
  · simp [sharpeRB, hstd]
  · simp [sharpeCM, hstd]

/-- Claim C6, witness at the constant return sequence `[NaN, 1%, 1%]`. -/
theorem C6_sharpe_zero_variance_witness :
    sharpeRB [none, some (1/100), some (1/100)] = some 0 ∧
    sharpeCM [none, some (1/100), some (1/100)] = some 0 :=
  C6_sharpe_zero_variance [none, some (1/100), some (1/100)]
    (by norm_num [validVals, List.filterMap])
    (by norm_num [varQ, validVals, meanQ, List.filterMap])

/-- Claim C7, counterexample: a strictly negative initial capital of −500 is
not rejected — `run_backtest` performs no validation of `initial_capital`
and returns a normal result record. -/
theorem C7_counterexample :
    isOkResult (runBacktest ⟨some [100, 101]⟩ [some 1, some 0] (-500)) = true := rfl

/-- Claim C7 (amended): a missing `Close` column and an empty bar series
each fail fast with an error and produce no result record, but a
non-positive initial capital is not validated: the engine proceeds and
returns a result. -/
theorem C7_input_validation_amended :
    (∀ (sigs : List Cell) (ic : ℚ),
      runBacktest ⟨none⟩ sigs ic = Except.error "KeyError: Close") ∧
    (∀ (sigs : List Cell) (ic : ℚ),
      runBacktest ⟨some []⟩ sigs ic
        = Except.error "IndexError: single positional indexer is out-of-bounds") ∧
    (∀ ic : ℚ, ic ≤ 0 →
      isOkResult (runBacktest ⟨some [100, 101]⟩ [some 1, some 0] ic) = true) :=
  ⟨fun _ _ => rfl, fun _ _ => rfl, fun _ _ => rfl⟩

/-- Claim C7 amended, witness at initial capital −1. -/
theorem C7_input_validation_amended_witness :
    isOkResult (runBacktest ⟨some [100, 101]⟩ [some 1, some 0] (-1)) = true :=
  C7_input_validation_amended.2.2 (-1) (by norm_num)

/-- Claim C8, counterexample: with closes `[100, 40, 60]`, constant signal
2 and initial capital 10000, the equity curve goes negative (strategy
return −120% at bar 1), and the drawdown at bar 2 is +1 — strictly
positive, so the drawdown series is not ≤ 0 at every bar. -/
theorem C8_counterexample :
    (drawdowns (equity 10000 [100, 40, 60] [some 2, some 2, some 2]))[2]?
      = some (some 1) ∧ ¬((1 : ℚ) ≤ 0) := by
  constructor
  · rw [show drawdowns (equity 10000 [100, 40, 60] [some 2, some 2, some 2])
        = [none, some 0, some 1] from by
      norm_num [drawdowns, equity, equityCurve, strategyReturns, positions, pctChange,
        normalizeSignal, truncQ, cumprodSkip, runningMax]]
    rfl
  · norm_num

/-- Claim C8 (amended): when the initial capital is positive and every
strategy return exceeds −1 (so equity never crosses zero), every non-NaN
drawdown value is ≤ 0, the drawdown is exactly 0 at every bar where the
equity equals its running maximum, and the reported max drawdown is the
minimum of the drawdown series × 100 (NaN entries skipped).  Without those
bounds the drawdown can be positive, and the value at bar 0 is NaN. -/
theorem C8_drawdown_amended (sr : List Cell) (ic : ℚ) (hic : 0 < ic)
    (hsr : ∀ q : ℚ, some q ∈ sr → -1 < q) :
    (∀ (t : ℕ) (q : ℚ), (drawdowns (equityCurve ic sr))[t]? = some (some q) → q ≤ 0) ∧
    (∀ (t : ℕ) (q : ℚ), (equityCurve ic sr)[t]? = some (some q) →
      (runningMax none (equityCurve ic sr))[t]? = some (some q) →
      (drawdowns (equityCurve ic sr))[t]? = some (some 0)) ∧
    rbMaxDrawdown ic sr = (minSkip (drawdowns (equityCurve ic sr))).map (fun d => d * 100) := by
  refine ⟨?_, ?_, rfl⟩
  · exact drawdowns_nonpos _ (equityCurve_mem_pos ic sr hic hsr)
  · intro t q he hm
    exact drawdowns_zero_at_max _ t q he hm

/-- Claim C8 amended, witness at the strategy returns `[NaN, 1%]` and
initial capital 10000: bar 1 is a new running maximum and its drawdown is
exactly 0. -/
theorem C8_drawdown_amended_witness :
    (drawdowns (equityCurve 10000 [none, some (1/100)]))[1]? = some (some 0) :=
  (C8_drawdown_amended [none, some (1/100)] 10000 (by norm_num)
      (by intro q hq; simp at hq; rw [hq]; norm_num)).2.1 1 10100
    (by norm_num [equityCurve, cumprodSkip])
    (by norm_num [equityCurve, cumprodSkip, runningMax])

/-- Claim C9: for every bar series with at least two bars, the always-long
signal series (signal ≡ 1) gives a strategy-return column identical to the
return column (strategy_return(t) = return(t) for t ≥ 1, both NaN at t = 0),
so the equity curve coincides with the benchmark buy-and-hold curve. -/
theorem C9_always_long (closes : List ℚ) (ic : ℚ) (h2 : 2 ≤ closes.length) :
    strategyReturns (positions (List.replicate closes.length (some 1)))
      (pctChange closes) = pctChange closes ∧
    equity ic closes (List.replicate closes.length (some 1))
      = equityCurve ic (pctChange closes) := by
  refine ⟨sr_always_long closes, ?_⟩
  rw [show equity ic closes (List.replicate closes.length (some 1))
      = equityCurve ic (strategyReturns (positions (List.replicate closes.length (some 1)))
        (pctChange closes)) from rfl, sr_always_long closes]

/-- Claim C9, witness at closes `[100, 101]` and initial capital 10000. -/
theorem C9_always_long_witness :
    strategyReturns (positions (List.replicate ([100, 101] : List ℚ).length (some 1)))
      (pctChange [100, 101]) = pctChange [100, 101] ∧
    equity 10000 [100, 101] (List.replicate ([100, 101] : List ℚ).length (some 1))
      = equityCurve 10000 (pctChange [100, 101]) :=
  C9_always_long [100, 101] 10000 (by norm_num)

/-- Claim C10: every signal strictly between 0 and 1 (for example the
fractional exposures emitted by the dollar-cost-average strategy) is
truncated by `astype(int)` to position eligibility 0; consequently a signal
series of such fractional values realizes only zero positions and leaves the
equity curve flat at the initial capital from bar 1 on. -/
theorem C10_fractional_signal :
    (∀ s : ℚ, 0 < s → s < 1 → normalizeSignal (some s) = 0) ∧
    ∀ (closes : List ℚ) (sigs : List Cell) (ic : ℚ),
      sigs.length = closes.length →
      (∀ c ∈ sigs, ∃ q : ℚ, c = some q ∧ 0 < q ∧ q < 1) →
      (∀ p ∈ positions sigs, p = 0) ∧
      ∀ t, 1 ≤ t → t < closes.length → (equity ic closes sigs)[t]? = some (some ic) := by
  refine ⟨normalizeSignal_unit, fun closes sigs ic hlen hfrac => ?_⟩
  have hzero : ∀ p ∈ positions sigs, p = 0 := by
    refine positions_mem_zero sigs (fun c hc => ?_)
    obtain ⟨q, rfl, h0, h1⟩ := hfrac c hc
    exact normalizeSignal_unit q h0 h1
  exact ⟨hzero, equity_flat_of_zero_positions closes sigs ic hlen hzero⟩

/-- Claim C10, witness at closes `[100, 101]`, the constant fractional
signal 1/2 and initial capital 10000. -/
theorem C10_fractional_signal_witness :
    (equity 10000 [100, 101] [some (1/2), some (1/2)])[1]? = some (some 10000) :=
  (C10_fractional_signal.2 [100, 101] [some (1/2), some (1/2)] 10000 (by norm_num)
      (by
        intro c hc
        simp only [List.mem_cons, List.not_mem_nil, or_false] at hc
        rcases hc with h | h <;>
          exact ⟨1/2, by rw [h], by norm_num, by norm_num⟩)).2
    1 (by norm_num) (by norm_num)

